import Mathlib

/-!
# Verification of the shop catalog data model (shop/models.py)

A shallow embedding of the single source module of the repository: the
`rand_slug` helper, the `Category` and `Product` models, the
`ProductManager`/`ProductProxy` pair, and the database-level behaviour that
their declarations induce (uniqueness constraints, cascading deletion).

Conventions of the embedding:

* Python strings are Lean `String`s; the embedding of `django.utils.text.slugify`
  treats the NFKD-normalisation step as the identity on ASCII characters and
  models `encode("ascii", "ignore")` as dropping every character whose code
  point is at least 128.
* The global state of the `random` module is threaded explicitly as a
  `RandomState` value: a stream of raw natural-number draws plus a position.
* Fallible operations (`random.choice` on an empty sequence, a constraint
  violation rejected by the database, a dangling foreign key) return `Option`.
* Database tables are association lists from primary keys (`Nat`) to rows.
-/

namespace Shop

/-! ## django.utils.text.slugify (ASCII branch, `allow_unicode=False`) -/

/-- The ASCII whitespace class of Python regular expressions
(space, tab, newline, carriage return, vertical tab, form feed). -/
def isPySpace (c : Char) : Bool :=
  c == ' ' || c == '\t' || c == '\n' || c == '\r' || c.toNat == 11 || c.toNat == 12

/-- A character kept by the substitution of `[^\w\s-]` with the empty string:
word characters (ASCII alphanumerics and underscore), whitespace and hyphen. -/
def isSlugKeep (c : Char) : Bool :=
  c.isAlphanum || c == '_' || c == '-' || isPySpace c

/-- A character collapsed by the substitution of `[-\s]+` with `-`:
hyphen or whitespace. -/
def isDashOrSpace (c : Char) : Bool :=
  c == '-' || isPySpace c

/-- A character removed from both ends by `.strip("-_")`. -/
def isStripChar (c : Char) : Bool :=
  c == '-' || c == '_'

/-- `encode("ascii", "ignore")` after NFKD: drop every non-ASCII character
(NFKD itself is the identity on the ASCII range). -/
def asciiIgnore (l : List Char) : List Char :=
  l.filter fun c => c.toNat < 128

/-- Replacing `[-\s]+` with `-`: every maximal run of hyphens and
whitespace becomes a single hyphen.  The Boolean argument records whether the
previous character belonged to such a run. -/
def collapseRuns : Bool → List Char → List Char
  | _, [] => []
  | prev, c :: rest =>
    if isDashOrSpace c then
      if prev then collapseRuns true rest else '-' :: collapseRuns true rest
    else c :: collapseRuns false rest

/-- `.strip("-_")`: remove leading and trailing hyphens and underscores. -/
def stripEnds (l : List Char) : List Char :=
  ((l.dropWhile isStripChar).reverse.dropWhile isStripChar).reverse

/-- `django.utils.text.slugify(value)` with `allow_unicode=False`:
normalise to ASCII, lowercase, delete characters outside `[\w\s-]`,
collapse runs of hyphens and whitespace to a single hyphen, and strip
leading and trailing hyphens and underscores. -/
def slugify (s : String) : String :=
  ⟨stripEnds (collapseRuns false (((asciiIgnore s.data).map Char.toLower).filter isSlugKeep))⟩

/-! ## rand_slug -/

/-- `string.ascii_lowercase`. -/
def ascii_lowercase : String := "abcdefghijklmnopqrstuvwxyz"

/-- `string.digits`. -/
def digitChars : String := "0123456789"

/-- The state of the global generator of the `random` module, threaded
explicitly: an infinite stream of raw draws and the current position. -/
structure RandomState where
  draws : Nat → Nat
  pos : Nat

/-- `random.choice(seq)`: raises `IndexError` on an empty sequence (modelled
by `none`); otherwise returns the element at the next drawn index, reduced
modulo the length of the sequence, and advances the generator. -/
def choice (seq : List Char) (g : RandomState) : Option (Char × RandomState) :=
  if h : seq.length = 0 then none
  else
    some (seq.get ⟨g.draws g.pos % seq.length, Nat.mod_lt _ (Nat.pos_of_ne_zero h)⟩,
      ⟨g.draws, g.pos + 1⟩)

/-- `rand_slug()`: join three characters chosen from
`string.ascii_lowercase + string.digits`. -/
def rand_slug (g : RandomState) : Option (String × RandomState) := do
  let (c1, g) ← choice (ascii_lowercase ++ digitChars).data g
  let (c2, g) ← choice (ascii_lowercase ++ digitChars).data g
  let (c3, g) ← choice (ascii_lowercase ++ digitChars).data g
  pure (⟨[c1, c2, c3]⟩, g)

/-- `rand_slug` running in a world that also carries arbitrary further state
of type `σ`: the function reads and writes only the generator component. -/
def rand_slug_world {σ : Type} (w : RandomState × σ) : Option (String × (RandomState × σ)) :=
  match rand_slug w.1 with
  | none => none
  | some (s, g) => some (s, (g, w.2))

/-! ## Category -/

/-- The fields of a `Category` row that the verified claims mention:
`name`, `slug`, and the nullable self-referential `parent` foreign key
(`created_at` plays no role in any claim and is omitted). -/
structure Category where
  name : String
  slug : String
  parent : Option Nat
deriving DecidableEq, Repr

/-- `Category.save`: when the slug is missing (empty, hence falsy), assign
`slugify(rand_slug() + "-pickBetter" + self.name)`, then delegate to the
standard persistence save.  The delegate is modelled as returning the saved
instance; the generator state is threaded explicitly. -/
def Category.save (g : RandomState) (c : Category) : Option (Category × RandomState) :=
  if c.slug = "" then
    match rand_slug g with
    | none => none
    | some (tok, g1) => some ({ c with slug := slugify (tok ++ "-pickBetter" ++ c.name) }, g1)
  else
    some (c, g)

/-- A table of persisted categories: primary key to row. -/
abbrev CategoryTable := List (Nat × Category)

/-! ## The uniqueness constraints declared on Category

`slug = models.SlugField(..., unique=True)` puts a single-column unique
constraint on `slug`; `Meta.unique_together = ("slug", "parent")` puts a
composite unique constraint on the pair.  The database enforces both on every
INSERT and UPDATE; the module itself adds no checking (it "relies on the
persistence layer to reject uniqueness violations"). -/

/-- The single-column constraint `unique=True` on `slug`: no existing row may
carry the candidate slug. -/
def slugUniqueOk (t : CategoryTable) (slug : String) : Bool :=
  t.all fun e => !(e.2.slug == slug)

/-- The composite constraint `unique_together = ("slug", "parent")`: no
existing row may carry the same pair.  As in SQL, a NULL parent never
collides (NULLs compare distinct in unique constraints). -/
def uniqueTogetherOk (t : CategoryTable) (slug : String) (parent : Option Nat) : Bool :=
  match parent with
  | none => true
  | some p => t.all fun e => !(e.2.slug == slug && e.2.parent == some p)

/-- INSERT of a fresh row: rejected (`none`) when the primary key is taken or
either declared uniqueness constraint fails. -/
def insertCategory (t : CategoryTable) (k : Nat) (row : Category) : Option CategoryTable :=
  if (t.lookup k).isSome then none
  else if slugUniqueOk t row.slug && uniqueTogetherOk t row.slug row.parent then
    some ((k, row) :: t)
  else none

/-- UPDATE of an existing row in place: rejected (`none`) when the key is
absent or the new field values violate a uniqueness constraint against the
other rows. -/
def updateCategory (t : CategoryTable) (k : Nat) (row : Category) : Option CategoryTable :=
  if (t.lookup k).isSome then
    let others := t.filter fun e => !(e.1 == k)
    if slugUniqueOk others row.slug && uniqueTogetherOk others row.slug row.parent then
      some (t.map fun e => if e.1 == k then (k, row) else e)
    else none
  else none

/-- The category tables reachable from the empty table through successful
create and update operations. -/
inductive ValidTable : CategoryTable → Prop
  | empty : ValidTable []
  | insert {t k row t1} : ValidTable t → insertCategory t k row = some t1 → ValidTable t1
  | update {t k row t1} : ValidTable t → updateCategory t k row = some t1 → ValidTable t1

/-! ## The string conversion of Category -/

/-- The `while k is not None` loop of the string conversion: follow the parent
pointer, appending each name to `full_path`.  `fuel` bounds the number of
iterations (`none` when it runs out, i.e. the chain does not reach a root
within `fuel` steps); a dangling parent key is also `none` (the attribute
access would raise in Django). -/
def strLoop (db : CategoryTable) : Nat → Option Nat → List String → Option (List String)
  | _, none, acc => some acc
  | 0, some _, _ => none
  | fuel + 1, some k, acc =>
    match db.lookup k with
    | none => none
    | some row => strLoop db fuel row.parent (acc ++ [row.name])

/-- The string conversion of `Category`: build `full_path = [self.name]`, run
the parent loop, reverse, and join with `" -> "`. -/
def Category.str (db : CategoryTable) (fuel : Nat) (c : Category) : Option String :=
  (strLoop db fuel c.parent [c.name]).map fun l => String.intercalate " -> " l.reverse

/-- The names along an ancestor chain, nearest parent first: the chain
starting at parent pointer `p` follows stored rows and ends at a root. -/
inductive AncestorNames (db : CategoryTable) : Option Nat → List String → Prop
  | root : AncestorNames db none []
  | step {k row ns} : db.lookup k = some row → AncestorNames db row.parent ns →
      AncestorNames db (some k) (row.name :: ns)

/-! ## Product, ProductManager, ProductProxy -/

/-- The fields of a `Product` row.  `price` is the fixed-point decimal in
hundredths (`DecimalField(max_digits=10, decimal_places=2)`), `image` the
stored file reference, `category` the foreign key into the category table;
the two timestamps are opaque instants. -/
structure Product where
  category : Nat
  title : String
  slug : String
  description : String
  brand : String
  price : Int
  image : String
  available : Bool
  created_at : Nat
  updated_at : Nat
deriving DecidableEq, Repr

/-- A table of persisted products: primary key to row. -/
abbrev ProductTable := List (Nat × Product)

/-- Insertion step of sorting by title (`Meta.ordering = ["title"]`). -/
def insertByTitle (p : Product) : List Product → List Product
  | [] => [p]
  | q :: rest => if p.title ≤ q.title then p :: q :: rest else q :: insertByTitle p rest

/-- Sort a list of products by title, the default ordering of `Product`. -/
def orderByTitle : List Product → List Product
  | [] => []
  | p :: rest => insertByTitle p (orderByTitle rest)

/-- The base queryset `Product.objects.all()`: every persisted row, in the
declared default ordering. -/
def productQueryset (db : List Product) : List Product :=
  orderByTitle db

/-- `ProductManager.get_queryset`: the base queryset filtered with
`available=True`. -/
def ProductManager.get_queryset (db : List Product) : List Product :=
  (productQueryset db).filter fun p => p.available

/-- The default queryset of `ProductProxy.objects`, which is a
`ProductManager`. -/
def ProductProxy.queryset (db : List Product) : List Product :=
  ProductManager.get_queryset db

/-! ## Cascading deletion

`Category.parent` and `Product.category` both declare
`on_delete=models.CASCADE`: deleting a category row deletes every category
whose parent chain passes through it and every product whose category is
deleted. -/

/-- The keys on the parent chain of `k`, the node itself first, up to a root.
`none` when the fuel runs out before a root is reached or a key on the chain
is dangling. -/
def ancestorIds (db : CategoryTable) : Nat → Nat → Option (List Nat)
  | 0, _ => none
  | fuel + 1, k =>
    match db.lookup k with
    | none => none
    | some row =>
      match row.parent with
      | none => some [k]
      | some p => (ancestorIds db fuel p).map fun l => k :: l

/-- Whether deleting `target` cascades to the category with key `k`:
`target` lies on the parent chain of `k` (the chain is resolved with fuel
`db.length`, enough for any acyclic table). -/
def cascaded (db : CategoryTable) (target k : Nat) : Bool :=
  match ancestorIds db db.length k with
  | some l => l.contains target
  | none => false

/-- `delete()` on the category with key `target`: remove every category the
deletion cascades to, and every product whose category is removed. -/
def deleteCategory (cats : CategoryTable) (prods : ProductTable) (target : Nat) :
    CategoryTable × ProductTable :=
  (cats.filter fun e => !(cascaded cats target e.1),
   prods.filter fun e => !(cascaded cats target e.2.category))

/-- `Reaches db k target`: `target` lies on the parent chain of `k`
(`k` included) — i.e. `k` is `target` itself or one of its descendants. -/
inductive Reaches (db : CategoryTable) : Nat → Nat → Prop
  | refl (k) : Reaches db k k
  | step {k row p t} : db.lookup k = some row → row.parent = some p →
      Reaches db p t → Reaches db k t

/-! ## Concrete sample data used by the witness theorems -/

/-- A concrete generator state whose raw draws are `0, 1, 2, ...`, so the
first token drawn is `"abc"`. -/
def sampleGen : RandomState := ⟨fun n => n, 0⟩

/-- A root category. -/
def sampleRoot : Category := ⟨"Root", "r", none⟩

/-- A child category of `sampleRoot` (stored under key 1). -/
def sampleChild : Category := ⟨"Child", "c", some 1⟩

/-- A two-row category table: a root under key 1 and its child under key 2. -/
def sampleTable : CategoryTable := [(1, sampleRoot), (2, sampleChild)]

/-- The table produced by inserting `sampleRoot` and then `sampleChild` into
the empty table. -/
def witnessTable : CategoryTable := [(2, sampleChild), (1, sampleRoot)]

/-- An available product in category 2. -/
def sampleProduct : Product := ⟨2, "Shoe", "shoe", "", "BrandX", 9999, "img", true, 0, 0⟩

/-- A product created with `available=false`. -/
def sampleUnavailable : Product := ⟨2, "Hat", "hat", "", "BrandX", 9999, "img", false, 0, 0⟩

/-! ## Helper lemmas -/

/-- Every character of the `rand_slug` alphabet is a lowercase letter or a
digit, is ASCII, and is untouched by every stage of `slugify`. -/
theorem alphabet_chars :
    ∀ c ∈ (ascii_lowercase ++ digitChars).data,
      (c.isLower = true ∨ c.isDigit = true) ∧ c.toNat < 128 ∧ Char.toLower c = c ∧
      isSlugKeep c = true ∧ isDashOrSpace c = false ∧ isStripChar c = false := by
  decide

/-- `random.choice` on the 36-character alphabet always succeeds, returns a
character of the alphabet, and advances the generator by one position. -/
theorem choice_alphabet_spec (g : RandomState) :
    ∃ c, choice (ascii_lowercase ++ digitChars).data g = some (c, ⟨g.draws, g.pos + 1⟩) ∧
      c ∈ (ascii_lowercase ++ digitChars).data := by
  unfold choice
  rw [dif_neg (by decide)]
  exact ⟨_, rfl, List.get_mem _ _ _⟩

/-- `rand_slug` always succeeds, returns three characters of the alphabet,
and advances the generator by three positions. -/
theorem rand_slug_spec (g : RandomState) :
    ∃ c1 c2 c3, rand_slug g = some (⟨[c1, c2, c3]⟩, ⟨g.draws, g.pos + 3⟩) ∧
      c1 ∈ (ascii_lowercase ++ digitChars).data ∧
      c2 ∈ (ascii_lowercase ++ digitChars).data ∧
      c3 ∈ (ascii_lowercase ++ digitChars).data := by
  obtain ⟨c1, h1, m1⟩ := choice_alphabet_spec g
  obtain ⟨c2, h2, m2⟩ := choice_alphabet_spec ⟨g.draws, g.pos + 1⟩
  obtain ⟨c3, h3, m3⟩ := choice_alphabet_spec ⟨g.draws, g.pos + 2⟩
  refine ⟨c1, c2, c3, ?_, m1, m2, m3⟩
  unfold rand_slug
  rw [h1]
  simp only [Option.bind_eq_bind, Option.some_bind]
  rw [h2]
  simp only [Option.some_bind]
  rw [show (RandomState.mk g.draws (g.pos + 1 + 1)) = ⟨g.draws, g.pos + 2⟩ from rfl]
  rw [h3]
  rfl

/-- A list headed by a non-strippable character does not strip to nil. -/
theorem stripEnds_ne_nil {c : Char} (l : List Char) (hc : isStripChar c = false) :
    stripEnds (c :: l) ≠ [] := by
  rw [stripEnds]
  intro h
  have h1 : (c :: l).dropWhile isStripChar = c :: l := by
    rw [List.dropWhile_cons, hc]
    simp
  rw [h1] at h
  have h2 : (c :: l).reverse.dropWhile isStripChar = [] := by
    have := congrArg List.reverse h
    simpa using this
  rw [List.dropWhile_eq_nil_iff] at h2
  have hmem : c ∈ (c :: l).reverse := by simp
  exact absurd (h2 c hmem) (by simp [hc])

/-- `slugify` of a string headed by a character that every stage preserves is
not empty. -/
theorem slugify_cons {c : Char} (l : List Char)
    (h1 : c.toNat < 128) (h2 : Char.toLower c = c) (h3 : isSlugKeep c = true)
    (h4 : isDashOrSpace c = false) (h5 : isStripChar c = false) :
    slugify ⟨c :: l⟩ ≠ "" := by
  rw [slugify]
  intro h
  have hd : stripEnds (collapseRuns false
      (((asciiIgnore (c :: l)).map Char.toLower).filter isSlugKeep)) = [] :=
    congrArg String.data h
  have e1 : asciiIgnore (c :: l) = c :: asciiIgnore l := by
    rw [asciiIgnore, List.filter_cons]
    simp only [h1, decide_True, if_true]
    rfl
  rw [e1, List.map_cons, h2, List.filter_cons] at hd
  simp only [h3, if_true] at hd
  rw [collapseRuns] at hd
  simp only [h4, Bool.false_eq_true, if_false] at hd
  exact stripEnds_ne_nil _ h5 hd

/-- A key is absent from an association list exactly when `lookup` misses. -/
theorem lookup_none_iff (t : CategoryTable) (k : Nat) :
    t.lookup k = none ↔ ∀ e ∈ t, e.1 ≠ k := by
  induction t with
  | nil => simp
  | cons e rest ih =>
    rw [List.lookup]
    cases hbe : (k == e.1) with
    | true =>
      have hk : e.1 = k := (beq_iff_eq.mp hbe).symm
      simp only [List.mem_cons]
      constructor
      · intro hfalse
        exact absurd hfalse (by simp)
      · intro hall
        exact absurd hk (hall e (Or.inl rfl))
    | false =>
      simp only [List.mem_cons]
      rw [ih]
      constructor
      · rintro hall f (rfl | hf)
        · intro hc
          rw [hc] at hbe
          simp at hbe
        · exact hall f hf
      · intro hall f hf
        exact hall f (Or.inr hf)

/-- Replacing the row stored under `k` does not change any key. -/
theorem updated_fst (k : Nat) (row : Category) (e : Nat × Category) :
    (if e.1 == k then (k, row) else e).1 = e.1 := by
  by_cases h : e.1 = k
  · simp [h]
  · simp [h]

/-- An in-place update leaves the key column of the table unchanged. -/
theorem update_keys (t : CategoryTable) (k : Nat) (row : Category) :
    (t.map fun e => if e.1 == k then (k, row) else e).map Prod.fst = t.map Prod.fst := by
  rw [List.map_map]
  exact List.map_congr_left fun e _ => updated_fst k row e

/-- An in-place update whose new slug avoids every other row keeps the slugs
of the table pairwise distinct. -/
theorem pairwise_update (t : CategoryTable) (k : Nat) (row : Category)
    (hpw : t.Pairwise fun a b => a.2.slug ≠ b.2.slug)
    (hnodup : (t.map Prod.fst).Nodup)
    (hok : ∀ e ∈ t, e.1 ≠ k → e.2.slug ≠ row.slug) :
    (t.map fun e => if e.1 == k then (k, row) else e).Pairwise
      fun a b => a.2.slug ≠ b.2.slug := by
  induction t with
  | nil => simp
  | cons e rest ih =>
    rw [List.map_cons]
    rw [List.pairwise_cons] at hpw
    rw [List.map_cons, List.nodup_cons] at hnodup
    refine List.Pairwise.cons ?_ (ih hpw.2 hnodup.2 fun f hf hfk => hok f (List.mem_cons_of_mem e hf) hfk)
    intro b hb
    obtain ⟨f, hf, rfl⟩ := List.mem_map.mp hb
    by_cases hek : e.1 = k
    · have he : (if e.1 == k then (k, row) else e) = (k, row) := by simp [hek]
      have hfk : f.1 ≠ k := by
        intro hc
        refine hnodup.1 ?_
        rw [hek, ← hc]
        exact List.mem_map_of_mem Prod.fst hf
      have hfu : (if f.1 == k then (k, row) else f) = f := by simp [hfk]
      rw [he, hfu]
      exact fun hc => hok f (List.mem_cons_of_mem e hf) hfk hc.symm
    · have he : (if e.1 == k then (k, row) else e) = e := by simp [hek]
      rw [he]
      by_cases hfk : f.1 = k
      · have hfu : (if f.1 == k then (k, row) else f) = (k, row) := by simp [hfk]
        rw [hfu]
        exact hok e (List.mem_cons_self e rest) hek
      · have hfu : (if f.1 == k then (k, row) else f) = f := by simp [hfk]
        rw [hfu]
        exact hpw.1 f hf

/-- Every table reachable through successful create and update operations has
pairwise-distinct primary keys and pairwise-distinct slugs. -/
theorem validTable_invariant {t : CategoryTable} (h : ValidTable t) :
    (t.map Prod.fst).Nodup ∧ t.Pairwise fun a b => a.2.slug ≠ b.2.slug := by
  induction h with
  | empty => simp
  | @insert t k row t1 hv hins ih =>
    rw [insertCategory] at hins
    by_cases hl : (t.lookup k).isSome
    · rw [if_pos hl] at hins; exact absurd hins (by simp)
    · rw [if_neg hl] at hins
      by_cases hc : slugUniqueOk t row.slug && uniqueTogetherOk t row.slug row.parent
      · rw [if_pos hc] at hins
        obtain rfl : (k, row) :: t = t1 := Option.some.inj hins
        have hku : t.lookup k = none := Option.not_isSome_iff_eq_none.mp hl
        have hslug : slugUniqueOk t row.slug = true := by
          cases Bool.and_eq_true _ _ |>.mp hc; assumption
        rw [slugUniqueOk, List.all_eq_true] at hslug
        constructor
        · rw [List.map_cons, List.nodup_cons]
          refine ⟨fun hk => ?_, ih.1⟩
          obtain ⟨e, he, hek⟩ := List.mem_map.mp hk
          exact (lookup_none_iff t k |>.mp hku) e he hek
        · refine List.Pairwise.cons (fun b hb => ?_) ih.2
          have := hslug b hb
          simp only [Bool.not_eq_true] at this
          intro hc2
          rw [hc2] at this
          simp at this
      · rw [if_neg hc] at hins; exact absurd hins (by simp)
  | @update t k row t1 hv hupd ih =>
    rw [updateCategory] at hupd
    by_cases hl : (t.lookup k).isSome
    · rw [if_pos hl] at hupd
      set others := t.filter fun e => !(e.1 == k) with hothers
      by_cases hc : slugUniqueOk others row.slug && uniqueTogetherOk others row.slug row.parent
      · rw [if_pos hc] at hupd
        obtain rfl : (t.map fun e => if e.1 == k then (k, row) else e) = t1 :=
          Option.some.inj hupd
        have hslug : slugUniqueOk others row.slug = true := by
          cases Bool.and_eq_true _ _ |>.mp hc; assumption
        rw [slugUniqueOk, List.all_eq_true] at hslug
        constructor
        · rw [update_keys]; exact ih.1
        · refine pairwise_update t k row ih.2 ih.1 fun e he hek => ?_
          have hmem : e ∈ others := by
            rw [hothers, List.mem_filter]
            exact ⟨he, by simpa using hek⟩
          have := hslug e hmem
          simp only [Bool.not_eq_true] at this
          intro hc2
          rw [hc2] at this
          simp at this
      · rw [if_neg hc] at hupd; exact absurd hupd (by simp)
    · rw [if_neg hl] at hupd; exact absurd hupd (by simp)

/-- In a table with pairwise-distinct slugs, two member rows with the same
slug are the same row. -/
theorem eq_of_mem_same_slug {t : CategoryTable}
    (hpw : t.Pairwise fun a b => a.2.slug ≠ b.2.slug) :
    ∀ e1 ∈ t, ∀ e2 ∈ t, e1.2.slug = e2.2.slug → e1 = e2 := by
  induction t with
  | nil => simp
  | cons a rest ih =>
    rw [List.pairwise_cons] at hpw
    intro e1 he1 e2 he2 hs
    rcases List.mem_cons.mp he1 with rfl | h1 <;> rcases List.mem_cons.mp he2 with rfl | h2
    · rfl
    · exact absurd hs (hpw.1 e2 h2)
    · exact absurd hs.symm (hpw.1 e1 h1)
    · exact ih hpw.2 e1 h1 e2 h2 hs

/-- The two-step insertion producing `witnessTable` is a valid history. -/
theorem witnessTable_valid : ValidTable witnessTable :=
  @ValidTable.insert [(1, sampleRoot)] 2 sampleChild witnessTable
    (@ValidTable.insert [] 1 sampleRoot [(1, sampleRoot)] ValidTable.empty (by decide))
    (by decide)

/-- The loop of the string conversion, run with enough fuel along a stored
ancestor chain, appends exactly the chain names to the accumulator. -/
theorem strLoop_spec (db : CategoryTable) {p : Option Nat} {ns : List String}
    (h : AncestorNames db p ns) :
    ∀ fuel, ns.length ≤ fuel → ∀ acc, strLoop db fuel p acc = some (acc ++ ns) := by
  induction h with
  | root =>
    intro fuel _ acc
    cases fuel <;> simp [strLoop]
  | @step k row ns hlook hanc ih =>
    intro fuel hle acc
    cases fuel with
    | zero => simp at hle
    | succ f =>
      rw [strLoop, hlook]
      show strLoop db f row.parent (acc ++ [row.name]) = some (acc ++ row.name :: ns)
      rw [ih f (by simpa using Nat.le_of_succ_le_succ hle) (acc ++ [row.name])]
      simp

/-- A successful lookup yields a member of the association list. -/
theorem mem_of_lookup {t : CategoryTable} {k : Nat} {row : Category}
    (h : t.lookup k = some row) : (k, row) ∈ t := by
  induction t with
  | nil => simp [List.lookup] at h
  | cons e rest ih =>
    rw [List.lookup] at h
    cases hbe : (k == e.1) with
    | true =>
      rw [hbe] at h
      obtain rfl : e.2 = row := Option.some.inj (by simpa using h)
      have : k = e.1 := beq_iff_eq.mp hbe
      rw [this]
      exact List.mem_cons_self _ _
    | false =>
      rw [hbe] at h
      exact List.mem_cons_of_mem e (ih (by simpa using h))

/-- In a table with distinct keys, membership determines the lookup result. -/
theorem lookup_of_mem_nodup {t : CategoryTable} {k : Nat} {row : Category}
    (hnd : (t.map Prod.fst).Nodup) (h : (k, row) ∈ t) : t.lookup k = some row := by
  induction t with
  | nil => simp at h
  | cons e rest ih =>
    rw [List.map_cons, List.nodup_cons] at hnd
    rcases List.mem_cons.mp h with rfl | hm
    · rw [List.lookup]
      simp
    · rw [List.lookup]
      cases hbe : (k == e.1) with
      | true =>
        obtain rfl : k = e.1 := beq_iff_eq.mp hbe
        exact absurd (List.mem_map_of_mem Prod.fst hm) hnd.1
      | false => exact ih hnd.2 hm

/-- A resolved ancestor chain stays the same when the fuel grows. -/
theorem ancestorIds_mono {db : CategoryTable} :
    ∀ {F F2 : Nat} {k : Nat} {l : List Nat}, ancestorIds db F k = some l → F ≤ F2 →
      ancestorIds db F2 k = some l := by
  intro F
  induction F with
  | zero => intro F2 k l h; simp [ancestorIds] at h
  | succ F ih =>
    intro F2 k l h hle
    obtain ⟨F2', rfl⟩ : ∃ F2', F2 = F2' + 1 := ⟨F2 - 1, by omega⟩
    rw [ancestorIds] at h ⊢
    cases hlk : db.lookup k with
    | none => rw [hlk] at h; exact absurd h (by simp)
    | some row =>
      rw [hlk] at h
      dsimp only at h ⊢
      cases hp : row.parent with
      | none =>
        rw [hp] at h
        dsimp only at h ⊢
        exact h
      | some p =>
        rw [hp] at h
        dsimp only at h ⊢
        obtain ⟨l', hl', rfl⟩ := Option.map_eq_some'.mp h
        rw [ih hl' (by omega)]
        rfl

/-- A node whose ancestor chain resolves is itself stored. -/
theorem ancestorIds_lookup {db : CategoryTable} {F : Nat} {k : Nat} {l : List Nat}
    (h : ancestorIds db F k = some l) : ∃ row, db.lookup k = some row := by
  cases F with
  | zero => simp [ancestorIds] at h
  | succ F =>
    rw [ancestorIds] at h
    cases hlk : db.lookup k with
    | none => rw [hlk] at h; exact absurd h (by simp)
    | some row => exact ⟨row, rfl⟩

/-- Every node reachable from `k` through parent pointers appears on its
resolved ancestor chain. -/
theorem reaches_mem_ancestorIds {db : CategoryTable} {k t : Nat}
    (hr : Reaches db k t) :
    ∀ {F : Nat} {l : List Nat}, ancestorIds db F k = some l → t ∈ l := by
  induction hr with
  | refl k =>
    intro F l h
    cases F with
    | zero => simp [ancestorIds] at h
    | succ F =>
      rw [ancestorIds] at h
      cases hlk : db.lookup k with
      | none => rw [hlk] at h; exact absurd h (by simp)
      | some row =>
        rw [hlk] at h
        dsimp only at h
        cases hp : row.parent with
        | none =>
          rw [hp] at h
          dsimp only at h
          obtain rfl := Option.some.inj h
          simp
        | some p =>
          rw [hp] at h
          dsimp only at h
          obtain ⟨l', hl', rfl⟩ := Option.map_eq_some'.mp h
          simp
  | @step k row p tt hlk hp hr ih =>
    intro F l h
    cases F with
    | zero => simp [ancestorIds] at h
    | succ F =>
      rw [ancestorIds, hlk] at h
      dsimp only at h
      rw [hp] at h
      dsimp only at h
      obtain ⟨l', hl', rfl⟩ := Option.map_eq_some'.mp h
      exact List.mem_cons_of_mem k (ih hl')

/-! ## The claims -/

/-- Claim C1: in every table reachable through create and update operations,
two persisted rows carrying the same slug and the same parent are the same
row — at most one Category exists per (slug, parent) pair. -/
theorem slug_parent_pair_unique {t : CategoryTable} (h : ValidTable t) :
    ∀ e1 ∈ t, ∀ e2 ∈ t, e1.2.slug = e2.2.slug → e1.2.parent = e2.2.parent → e1 = e2 :=
  fun e1 h1 e2 h2 hs _ => eq_of_mem_same_slug (validTable_invariant h).2 e1 h1 e2 h2 hs

/-- Witness for C1: instantiated on the concrete two-row valid table. -/
theorem slug_parent_pair_unique_witness : (2, sampleChild) = (2, sampleChild) :=
  slug_parent_pair_unique witnessTable_valid (2, sampleChild) (by decide)
    (2, sampleChild) (by decide) rfl rfl

/-- Claim C2 (amended): saving a Category with an empty slug draws a
3-character token and assigns `slugify(token ++ "-pickBetter" ++ name)` —
the whole concatenation is slugified — which is never empty; save then
delegates to the standard persistence save with every other field
unchanged. -/
theorem save_assigns_generated_slug (g : RandomState) (c : Category) (h : c.slug = "") :
    ∃ tok g1, rand_slug g = some (tok, g1) ∧ tok.length = 3 ∧
      Category.save g c = some ({ c with slug := slugify (tok ++ "-pickBetter" ++ c.name) }, g1) ∧
      slugify (tok ++ "-pickBetter" ++ c.name) ≠ "" := by
  obtain ⟨c1, c2, c3, hrand, m1, m2, m3⟩ := rand_slug_spec g
  refine ⟨⟨[c1, c2, c3]⟩, ⟨g.draws, g.pos + 3⟩, hrand, rfl, ?_, ?_⟩
  · rw [Category.save, if_pos h, hrand]
  · have hstr : (⟨[c1, c2, c3]⟩ : String) ++ "-pickBetter" ++ c.name
        = ⟨c1 :: ([c2, c3] ++ "-pickBetter".data ++ c.name.data)⟩ := by
      apply String.ext
      simp [String.data_append]
    rw [hstr]
    obtain ⟨-, h1, h2, h3, h4, h5⟩ := alphabet_chars c1 m1
    exact slugify_cons _ h1 h2 h3 h4 h5

/-- Witness for C2 (amended): saving the slugless Category named `"x"` with
the sample generator. -/
theorem save_assigns_generated_slug_witness :
    ∃ tok g1, rand_slug sampleGen = some (tok, g1) ∧ tok.length = 3 ∧
      Category.save sampleGen ⟨"x", "", none⟩
        = some ({ Category.mk "x" "" none with
            slug := slugify (tok ++ "-pickBetter" ++ (Category.mk "x" "" none).name) }, g1) ∧
      slugify (tok ++ "-pickBetter" ++ (Category.mk "x" "" none).name) ≠ "" :=
  save_assigns_generated_slug sampleGen ⟨"x", "", none⟩ rfl

/-- Counterexample for C2 as stated: no single fixed separator string makes
the assigned slug equal to token ++ separator ++ slugify(name) for both the
name `"x"` and the name `" x"` (the token drawn by the sample generator is
`"abc"`).  The code slugifies the whole concatenation, so a leading space of
the name turns into a hyphen that the componentwise reading cannot
produce. -/
theorem save_slug_not_componentwise :
    ¬ ∃ sep : String,
      (Category.save sampleGen ⟨"x", "", none⟩).map (fun p => p.1.slug)
          = some ("abc" ++ sep ++ slugify "x") ∧
      (Category.save sampleGen ⟨" x", "", none⟩).map (fun p => p.1.slug)
          = some ("abc" ++ sep ++ slugify " x") := by
  rintro ⟨sep, h1, h2⟩
  have e1 : (Category.save sampleGen ⟨"x", "", none⟩).map (fun p => p.1.slug)
      = some "abc-pickbetterx" := by decide
  rw [e1] at h1
  have hsep : sep = "-pickbetter" := by
    have hd : ("abc-pickbetterx" : String).data = ("abc" ++ sep ++ slugify "x").data :=
      congrArg String.data (Option.some.inj h1)
    rw [String.data_append, String.data_append] at hd
    have hk : ("abc-pickbetterx" : String).data
        = "abc".data ++ ("-pickbetter".data ++ (slugify "x").data) := by decide
    rw [hk, List.append_assoc] at hd
    have := List.append_cancel_left hd
    have := List.append_cancel_right this
    exact String.ext this.symm
  subst hsep
  have e2 : (Category.save sampleGen ⟨" x", "", none⟩).map (fun p => p.1.slug)
      = some "abc-pickbetter-x" := by decide
  rw [e2] at h2
  exact absurd (Option.some.inj h2) (by decide)

/-- Sorted insertion by title preserves the members of the list. -/
theorem mem_insertByTitle (p q : Product) (l : List Product) :
    p ∈ insertByTitle q l ↔ p = q ∨ p ∈ l := by
  induction l with
  | nil => simp [insertByTitle]
  | cons r rest ih =>
    rw [insertByTitle]
    by_cases h : q.title ≤ r.title
    · simp [h, List.mem_cons]
    · simp only [h, if_false, List.mem_cons, ih]
      tauto

/-- Sorting by title preserves the members of the list. -/
theorem mem_orderByTitle (p : Product) (l : List Product) :
    p ∈ orderByTitle l ↔ p ∈ l := by
  induction l with
  | nil => simp [orderByTitle]
  | cons q rest ih =>
    rw [orderByTitle, mem_insertByTitle, ih, List.mem_cons]

/-- Claim C3: the default query of ProductProxy returns exactly the persisted
Products whose available flag is true; a Product with available=false is
excluded from it but any persisted Product is in the base Product query. -/
theorem proxy_queryset_available (db : List Product) (p : Product) :
    (p ∈ ProductProxy.queryset db ↔ p ∈ db ∧ p.available = true) ∧
    (p ∈ db → p ∈ productQueryset db) ∧
    (p.available = false → p ∉ ProductProxy.queryset db) := by
  have hiff : p ∈ ProductProxy.queryset db ↔ p ∈ db ∧ p.available = true := by
    rw [ProductProxy.queryset, ProductManager.get_queryset, List.mem_filter,
      productQueryset, mem_orderByTitle]
  refine ⟨hiff, ?_, ?_⟩
  · intro hm
    rw [productQueryset, mem_orderByTitle]
    exact hm
  · intro hav hmem
    obtain ⟨-, h2⟩ := hiff.mp hmem
    rw [hav] at h2
    exact Bool.noConfusion h2

/-- Witness for C3: a single unavailable product is in the base query but
not in the proxy query. -/
theorem proxy_queryset_available_witness :
    (sampleUnavailable ∈ ProductProxy.queryset [sampleUnavailable]
        ↔ sampleUnavailable ∈ [sampleUnavailable] ∧ sampleUnavailable.available = true) ∧
    (sampleUnavailable ∈ [sampleUnavailable]
        → sampleUnavailable ∈ productQueryset [sampleUnavailable]) ∧
    (sampleUnavailable.available = false
        → sampleUnavailable ∉ ProductProxy.queryset [sampleUnavailable]) :=
  proxy_queryset_available [sampleUnavailable] sampleUnavailable

/-- Claim C4: for a Category whose stored ancestor chain carries the names
`ns` (nearest parent first), the string conversion run with enough fuel
returns the names from the root down to the Category, joined by " -> ". -/
theorem str_eq_root_chain (db : CategoryTable) (c : Category) {ns : List String}
    (h : AncestorNames db c.parent ns) (fuel : Nat) (hf : ns.length ≤ fuel) :
    Category.str db fuel c = some (String.intercalate " -> " ((c.name :: ns).reverse)) := by
  rw [Category.str, strLoop_spec db h fuel hf [c.name]]
  rfl

/-- Witness for C4: the child of the sample table renders as
"Root -> Child". -/
theorem str_eq_root_chain_witness :
    (["Root"] : List String).length ≤ 1 ∧
      Category.str sampleTable 1 sampleChild = some "Root -> Child" := by
  have h : AncestorNames sampleTable sampleChild.parent ["Root"] := by
    have hx : sampleTable.lookup 1 = some sampleRoot := by decide
    exact .step hx .root
  refine ⟨by decide, ?_⟩
  rw [str_eq_root_chain sampleTable sampleChild h 1 (by decide)]
  decide

/-- Claim C5: deleting a persisted Category removes it, removes every
descendant Category and every Product of a removed Category, and leaves no
orphans: every remaining Category still has its parent in the table and
every remaining Product still has its Category.  The hypotheses say the
table has distinct keys, every stored parent chain resolves to a root, and
every Product refers to a stored Category. -/
theorem delete_category_cascades (cats : CategoryTable) (prods : ProductTable) (t : Nat)
    (hnodup : (cats.map Prod.fst).Nodup)
    (hroot : ∀ e ∈ cats, (ancestorIds cats cats.length e.1).isSome = true)
    (hpc : ∀ e ∈ prods, ∃ row, (e.2.category, row) ∈ cats) :
    (∀ row, (t, row) ∈ cats → (t, row) ∉ (deleteCategory cats prods t).1) ∧
    (∀ k row, (k, row) ∈ cats → Reaches cats k t → (k, row) ∉ (deleteCategory cats prods t).1) ∧
    (∀ e ∈ prods, Reaches cats e.2.category t → e ∉ (deleteCategory cats prods t).2) ∧
    (∀ k row, (k, row) ∈ (deleteCategory cats prods t).1 → ∀ p, row.parent = some p →
      ∃ prow, (p, prow) ∈ (deleteCategory cats prods t).1) ∧
    (∀ e, e ∈ (deleteCategory cats prods t).2 →
      ∃ row, (e.2.category, row) ∈ (deleteCategory cats prods t).1) := by
  have hcasc : ∀ k row, (k, row) ∈ cats → Reaches cats k t → cascaded cats t k = true := by
    intro k row hm hr
    obtain ⟨l, hl⟩ := Option.isSome_iff_exists.mp (hroot (k, row) hm)
    rw [cascaded, hl]
    exact List.elem_iff.mpr (reaches_mem_ancestorIds hr hl)
  have main2 : ∀ k row, (k, row) ∈ cats → Reaches cats k t →
      (k, row) ∉ (deleteCategory cats prods t).1 := by
    intro k row hm hr hmem
    obtain ⟨-, hcond⟩ := List.mem_filter.mp hmem
    rw [hcasc k row hm hr] at hcond
    simp at hcond
  refine ⟨fun row hm => main2 t row hm (.refl t), main2, ?_, ?_, ?_⟩
  · intro e hm hr hmem
    obtain ⟨-, hcond⟩ := List.mem_filter.mp hmem
    obtain ⟨row, hrow⟩ := hpc e hm
    rw [hcasc e.2.category row hrow hr] at hcond
    simp at hcond
  · intro k row hmem p hp
    obtain ⟨hm, hcond⟩ := List.mem_filter.mp hmem
    have hfalse : cascaded cats t k = false := by simpa using hcond
    have hlk : cats.lookup k = some row := lookup_of_mem_nodup hnodup hm
    obtain ⟨l, hl⟩ := Option.isSome_iff_exists.mp (hroot (k, row) hm)
    obtain ⟨F, hF⟩ : ∃ F, cats.length = F + 1 := by
      cases cats with
      | nil => simp at hm
      | cons a rest => exact ⟨rest.length, rfl⟩
    rw [hF, ancestorIds, hlk] at hl
    dsimp only at hl
    rw [hp] at hl
    dsimp only at hl
    obtain ⟨l', hl', rfl⟩ := Option.map_eq_some'.mp hl
    obtain ⟨prow, hplk⟩ := ancestorIds_lookup hl'
    refine ⟨prow, List.mem_filter.mpr ⟨mem_of_lookup hplk, ?_⟩⟩
    have hlp : ancestorIds cats cats.length p = some l' := ancestorIds_mono hl' (by omega)
    have hlk2 : ancestorIds cats cats.length k = some (k :: l') := by
      rw [hF, ancestorIds, hlk]
      dsimp only
      rw [hp]
      dsimp only
      rw [hl']
      rfl
    rw [cascaded, hlk2] at hfalse
    dsimp only at hfalse
    rw [cascaded, hlp]
    dsimp only
    cases hct : (l'.contains t) with
    | false => rfl
    | true =>
      exfalso
      have hmem2 : t ∈ k :: l' := List.mem_cons_of_mem k (List.elem_iff.mp hct)
      have hcontra : (k :: l').contains t = true := List.elem_iff.mpr hmem2
      rw [hcontra] at hfalse
      exact Bool.noConfusion hfalse
  · intro e hmem
    obtain ⟨hm, hcond⟩ := List.mem_filter.mp hmem
    obtain ⟨row, hrow⟩ := hpc e hm
    exact ⟨row, List.mem_filter.mpr ⟨hrow, hcond⟩⟩

/-- Witness for C5: deleting category 2 of the sample table removes the row
stored under key 2. -/
theorem delete_category_cascades_witness :
    (2, sampleChild) ∉ (deleteCategory sampleTable [(7, sampleProduct)] 2).1 :=
  (delete_category_cascades sampleTable [(7, sampleProduct)] 2 (by decide) (by decide)
    (fun e he => by
      rw [List.mem_singleton] at he
      subst he
      exact ⟨sampleChild, by decide⟩)).1 sampleChild (by decide)

/-- Claim C6: saving a Category whose slug is already non-empty leaves the
instance — the slug field in particular — and the generator untouched:
`rand_slug` is not even consulted. -/
theorem save_preserves_existing_slug (g : RandomState) (c : Category) (h : c.slug ≠ "") :
    Category.save g c = some (c, g) := by
  rw [Category.save, if_neg h]

/-- Witness for C6: a Category with slug "s" is saved unchanged. -/
theorem save_preserves_existing_slug_witness :
    Category.save sampleGen ⟨"n", "s", none⟩ = some (⟨"n", "s", none⟩, sampleGen) :=
  save_preserves_existing_slug sampleGen ⟨"n", "s", none⟩ (by decide)

/-- Claim C7: with the generator state threaded explicitly, `rand_slug` is a
total deterministic function of the input state: it never fails, equal input
states give equal results, and every component of the world other than the
generator is returned unchanged. -/
theorem rand_slug_pure (σ : Type) (w : RandomState × σ) :
    (∃ s g1, rand_slug_world w = some (s, (g1, w.2))) ∧
    (∀ w2 : RandomState × σ, w2 = w → rand_slug_world w2 = rand_slug_world w) := by
  refine ⟨?_, fun w2 h2 => h2 ▸ rfl⟩
  obtain ⟨c1, c2, c3, h, -⟩ := rand_slug_spec w.1
  exact ⟨_, _, by rw [rand_slug_world, h]⟩

/-- Witness for C7: instantiated at the sample generator paired with the
number 5 as the rest of the world. -/
theorem rand_slug_pure_witness :
    (∃ s g1, rand_slug_world (sampleGen, 5) = some (s, (g1, (sampleGen, 5).2))) ∧
    (∀ w2 : RandomState × Nat, w2 = (sampleGen, 5) →
      rand_slug_world w2 = rand_slug_world (sampleGen, 5)) :=
  rand_slug_pure Nat (sampleGen, 5)

/-- Claim C8: every successful call of `rand_slug` returns a string of
exactly 3 characters, each a lowercase ASCII letter or a decimal digit. -/
theorem rand_slug_three_lowercase_digits (g : RandomState) (s : String) (g1 : RandomState)
    (h : rand_slug g = some (s, g1)) :
    s.length = 3 ∧ ∀ c ∈ s.data, c.isLower = true ∨ c.isDigit = true := by
  obtain ⟨c1, c2, c3, h2, m1, m2, m3⟩ := rand_slug_spec g
  rw [h] at h2
  obtain ⟨rfl, -⟩ : s = ⟨[c1, c2, c3]⟩ ∧ g1 = ⟨g.draws, g.pos + 3⟩ := by
    have := Option.some.inj h2
    exact ⟨congrArg Prod.fst this, congrArg Prod.snd this⟩
  refine ⟨rfl, ?_⟩
  intro c hc
  simp only [List.mem_cons, List.not_mem_nil, or_false] at hc
  rcases hc with rfl | rfl | rfl
  · exact (alphabet_chars _ m1).1
  · exact (alphabet_chars _ m2).1
  · exact (alphabet_chars _ m3).1

/-- Witness for C8: the sample generator draws the token "abc". -/
theorem rand_slug_three_lowercase_digits_witness :
    ("abc" : String).length = 3 ∧
      ∀ c ∈ ("abc" : String).data, c.isLower = true ∨ c.isDigit = true :=
  rand_slug_three_lowercase_digits sampleGen "abc" ⟨sampleGen.draws, 3⟩ rfl

/-- Claim C9: in every table reachable through create and update operations,
the slugs of rows at distinct positions differ — Category slugs are globally
unique, regardless of parent, because of the unique=True declaration. -/
theorem slugs_globally_unique {t : CategoryTable} (h : ValidTable t) :
    ∀ (i j : Fin t.length), i ≠ j → (t.get i).2.slug ≠ (t.get j).2.slug := by
  have hpw := (validTable_invariant h).2
  rw [List.pairwise_iff_get] at hpw
  intro i j hne
  rcases Nat.lt_or_ge i.val j.val with hlt | hge
  · exact hpw i j hlt
  · have hlt : j < i := Nat.lt_of_le_of_ne hge (fun hc => hne (Fin.ext hc.symm))
    exact fun hc => hpw j i hlt hc.symm

/-- Witness for C9: the two rows of the concrete valid table carry different
slugs. -/
theorem slugs_globally_unique_witness :
    ((⟨0, by decide⟩ : Fin witnessTable.length) ≠ ⟨1, by decide⟩) ∧
      (witnessTable.get ⟨0, by decide⟩).2.slug ≠ (witnessTable.get ⟨1, by decide⟩).2.slug :=
  ⟨by decide, slugs_globally_unique witnessTable_valid _ _ (by decide)⟩

/-- Claim C10: for a Category whose parent chain is acyclic — it reaches a
parentless root after finitely many stored steps, witnessed by an
`AncestorNames` chain — the string-conversion loop terminates, i.e. returns
a result once the fuel covers the chain length. -/
theorem str_loop_terminates (db : CategoryTable) (c : Category) {ns : List String}
    (h : AncestorNames db c.parent ns) (fuel : Nat) (hf : ns.length ≤ fuel) :
    (Category.str db fuel c).isSome = true := by
  rw [Category.str, strLoop_spec db h fuel hf [c.name]]
  rfl

/-- Witness for C10: the loop terminates on the child of the sample table. -/
theorem str_loop_terminates_witness :
    (["Root"] : List String).length ≤ 1 ∧
      (Category.str sampleTable 1 sampleChild).isSome = true := by
  have h : AncestorNames sampleTable sampleChild.parent ["Root"] := by
    have hx : sampleTable.lookup 1 = some sampleRoot := by decide
    exact .step hx .root
  exact ⟨by decide, str_loop_terminates sampleTable sampleChild h 1 (by decide)⟩

end Shop
